import Mathlib

/-!
Verification of the `mdbook-gettext` preprocessor
(`i18n-helpers/src/bin/mdbook-gettext.rs`).

The development embeds the program shallowly:

* a text unit is a `String`; we work internally with its `List Char`
  representation, split into *line chunks* (each chunk is one line of the
  text, keeping its terminating newline when present — the semantics of
  Rust's `split_inclusive('\n')`);
* the translation catalog is a list of `(msgid, msgstr)` pairs looked up
  by exact equality of the msgid, mirroring `polib`'s
  `Catalog::find_message` followed by `Message::get_msgstr`;
* `translate` is a left fold over the extracted paragraphs, mirroring the
  `for` loop of the source, followed by the final trailing-newline step;
* the book tree and the configuration-handling part of `translate_book`
  are modelled as sum types, with the collaborator pieces (mdbook config,
  PO-file parsing) modelled from the spec since their sources are not
  part of this repository.
-/

namespace MdbookGettext

/-! ## Line chunks -/

/-- Split a character list into its lines, each line keeping its
terminating newline when present: the semantics of Rust's
`split_inclusive('\n')`.  `"a\nb"` becomes `["a\n", "b"]`, `"a\n"`
becomes `["a\n"]`, `""` becomes `[]`. -/
def lineSplitL : List Char → List (List Char)
  | [] => []
  | c :: rest =>
    if c = '\n' then ['\n'] :: lineSplitL rest
    else
      match lineSplitL rest with
      | [] => [[c]]
      | l :: ls => (c :: l) :: ls

/-- A chunk is blank when it is exactly a lone newline: a line of length
zero after trimming its terminating newline. -/
def isBlankL (l : List Char) : Bool := decide (l = ['\n'])

/-- Number of lines of a string, as Rust's `str::lines().count()`
computes it (a final unterminated line counts, a trailing newline does
not add an empty line). -/
def linesCount (s : String) : Nat := (lineSplitL s.data).length

theorem lineSplitL_nil_iff (s : List Char) : lineSplitL s = [] ↔ s = [] := by
  constructor
  · intro h
    cases s with
    | nil => rfl
    | cons c rest =>
      rw [lineSplitL] at h
      split at h
      · simp at h
      · split at h <;> simp_all
  · intro h; subst h; rfl

theorem joinL_lineSplitL (s : List Char) : (lineSplitL s).flatten = s := by
  induction s with
  | nil => rfl
  | cons c rest ih =>
    rw [lineSplitL]
    split
    · simp only [List.flatten_cons]
      simp_all
    · rename_i hne
      rcases h : lineSplitL rest with _ | ⟨l, ls⟩
      · have : rest = [] := (lineSplitL_nil_iff rest).mp h
        subst this
        simp
      · rw [h] at ih
        simp only [List.flatten_cons] at ih ⊢
        simp [ih]

/-! ### Well-formed chunk lists

A chunk list is well formed when every chunk is a genuine line (nonempty,
with a newline at most in final position) and every chunk except possibly
the last is newline-terminated.  `lineSplitL` produces exactly the well
formed chunk lists, and on them it is inverse to flattening. -/

/-- A genuine line chunk: nonempty, and any newline sits in final
position only. -/
def IsLineL (l : List Char) : Prop := l ≠ [] ∧ ∀ ch ∈ l.dropLast, ch ≠ '\n'

/-- The chunk is newline-terminated. -/
def IsTermL (l : List Char) : Prop := l.getLast? = some '\n'

/-- Every chunk except possibly the last is newline-terminated. -/
def ChainedL : List (List Char) → Prop
  | [] => True
  | [_] => True
  | l :: rest => IsTermL l ∧ ChainedL rest

/-- Well-formed chunk list: the image of `lineSplitL`. -/
def WfChunks (cs : List (List Char)) : Prop :=
  (∀ l ∈ cs, IsLineL l) ∧ ChainedL cs

theorem chainedL_cons {l : List Char} {rest : List (List Char)}
    (h1 : rest = [] ∨ IsTermL l) (h2 : ChainedL rest) :
    ChainedL (l :: rest) := by
  cases rest with
  | nil => trivial
  | cons r rs =>
    rcases h1 with h | h
    · simp at h
    · exact ⟨h, h2⟩

theorem chainedL_of_cons {l : List Char} {rest : List (List Char)}
    (h : ChainedL (l :: rest)) : ChainedL rest := by
  cases rest with
  | nil => trivial
  | cons r rs => exact h.2

theorem isTermL_of_chained {l : List Char} {rest : List (List Char)}
    (h : ChainedL (l :: rest)) (hne : rest ≠ []) : IsTermL l := by
  cases rest with
  | nil => exact absurd rfl hne
  | cons r rs => exact h.1

theorem getLastQ_cons_ne_nil {α : Type} {a : α} {l : List α} (h : l ≠ []) :
    (a :: l).getLast? = l.getLast? := by
  cases l with
  | nil => exact absurd rfl h
  | cons b bs => exact List.getLast?_cons_cons

theorem wf_lineSplitL (s : List Char) : WfChunks (lineSplitL s) := by
  induction s with
  | nil => exact ⟨by intro l hl; simp [lineSplitL] at hl, trivial⟩
  | cons c rest ih =>
    rw [lineSplitL]
    split
    · refine ⟨?_, ?_⟩
      · intro l hl
        rcases List.mem_cons.mp hl with h | h
        · exact ⟨by simp [h], by simp [h]⟩
        · exact ih.1 l h
      · exact chainedL_cons (Or.inr (by simp [IsTermL])) ih.2
    · rename_i hne
      rcases h : lineSplitL rest with _ | ⟨l, ls⟩
      · refine ⟨?_, ?_⟩
        · intro l hl
          rcases List.mem_cons.mp hl with hm | hm
          · exact ⟨by simp [hm], by simp [hm]⟩
          · simp at hm
        · trivial
      · rw [h] at ih
        have hlne : l ≠ [] := (ih.1 l (by simp)).1
        refine ⟨?_, ?_⟩
        · intro m hm
          rcases List.mem_cons.mp hm with hm1 | hm1
          · subst hm1
            refine ⟨by simp, ?_⟩
            intro ch hch
            rw [List.dropLast_cons_of_ne_nil hlne] at hch
            rcases List.mem_cons.mp hch with h2 | h2
            · exact h2 ▸ hne
            · exact (ih.1 l (by simp)).2 ch h2
          · exact ih.1 m (by simp [hm1])
        · refine chainedL_cons ?_ (chainedL_of_cons ih.2)
          cases ls with
          | nil => exact Or.inl rfl
          | cons a as =>
            refine Or.inr ?_
            have hterm : IsTermL l := isTermL_of_chained ih.2 (by simp)
            unfold IsTermL at hterm ⊢
            rwa [getLastQ_cons_ne_nil hlne]

theorem lineSplitL_noNl_term {m : List Char} (hm : ∀ ch ∈ m, ch ≠ '\n') :
    ∀ s, lineSplitL (m ++ '\n' :: s) = (m ++ ['\n']) :: lineSplitL s := by
  induction m with
  | nil => intro s; simp [lineSplitL]
  | cons c m ih =>
    intro s
    have hc : c ≠ '\n' := hm c (by simp)
    have hm2 : ∀ ch ∈ m, ch ≠ '\n' := fun ch h => hm ch (by simp [h])
    rw [List.cons_append, lineSplitL, if_neg hc, ih hm2]
    rfl

theorem lineSplitL_noNl {l : List Char} (hne : l ≠ []) (hl : ∀ ch ∈ l, ch ≠ '\n') :
    lineSplitL l = [l] := by
  induction l with
  | nil => exact absurd rfl hne
  | cons c m ih =>
    have hc : c ≠ '\n' := hl c (by simp)
    rw [lineSplitL, if_neg hc]
    cases m with
    | nil => rfl
    | cons d m2 =>
      rw [ih (by simp) (fun ch h => hl ch (by simp [h]))]

/-- On well-formed chunk lists, `lineSplitL` is inverse to flattening. -/
theorem lineSplitL_flatten : ∀ {cs : List (List Char)}, WfChunks cs →
    lineSplitL cs.flatten = cs := by
  intro cs
  induction cs with
  | nil => intro _; rfl
  | cons l rest ih =>
    intro hwf
    have hline : IsLineL l := hwf.1 l (by simp)
    have hwfrest : WfChunks rest :=
      ⟨fun m hm => hwf.1 m (by simp [hm]), chainedL_of_cons hwf.2⟩
    cases rest with
    | nil =>
      simp only [List.flatten_cons, List.flatten_nil, List.append_nil]
      rcases hterm : l.getLast? with _ | ch
      · cases l with
        | nil => exact absurd rfl hline.1
        | cons a as =>
          rw [List.getLast?_eq_getLast (a :: as) (by simp)] at hterm
          exact Option.noConfusion hterm
      · by_cases hch : ch = '\n'
        · subst hch
          have hdec : l.dropLast ++ ['\n'] = l :=
            List.dropLast_append_getLast? '\n' hterm
          have h2 := lineSplitL_noNl_term hline.2 []
          rw [hdec] at h2
          rw [h2]
          rfl
        · have hdec : l.dropLast ++ [ch] = l :=
            List.dropLast_append_getLast? ch hterm
          have hnonl : ∀ c ∈ l, c ≠ '\n' := by
            intro c hc
            rw [← hdec] at hc
            rcases List.mem_append.mp hc with h | h
            · exact hline.2 c h
            · simp at h
              exact h ▸ hch
          exact lineSplitL_noNl hline.1 hnonl
    | cons r rs =>
      have hterm : IsTermL l := isTermL_of_chained hwf.2 (by simp)
      have hdec : l.dropLast ++ ['\n'] = l :=
        List.dropLast_append_getLast? '\n' hterm
      have h2 := lineSplitL_noNl_term hline.2 ((r :: rs).flatten)
      have h3 : (l :: r :: rs).flatten = l.dropLast ++ '\n' :: (r :: rs).flatten := by
        rw [List.flatten_cons]
        conv_lhs => rw [← hdec]
        rw [List.append_assoc]
        rfl
      rw [h3, h2, hdec, ih hwfrest]

/-! ## Catalog

Embeds the `polib` catalog as consumed by the program: a sequence of
`(msgid, msgstr)` entries, with `find_message` performing the exact
msgid lookup and `get_msgstr` returning the entry's msgstr. -/

/-- A translation catalog: `(msgid, msgstr)` entries. -/
abbrev Catalog : Type := List (String × String)

/-- Embeds `catalog.find_message(text)` followed by
`msg.get_msgstr().ok()`: the msgstr of the first entry whose msgid
exactly equals the given text. -/
def find_message (catalog : Catalog) (msgid : String) : Option String :=
  (List.find? (fun e => decide (e.1 = msgid)) catalog).map (fun e => e.2)

/-- Embeds the per-paragraph translation of `translate` (lines 51–57 of
`mdbook-gettext.rs`): take the catalog's msgstr for the paragraph, filter
out an empty msgstr, and fall back to the paragraph itself. -/
def translateParagraph (catalog : Catalog) (paragraph : String) : String :=
  match find_message catalog paragraph with
  | some msgstr => if msgstr = "" then paragraph else msgstr
  | none => paragraph

/-! ## Paragraph segmenter

Modelled from the spec: the function `extract_paragraphs` lives in the
`i18n_helpers` library crate, whose source is not part of this
repository; only its caller `translate` is.  Per the spec (§4.1, §3 and
the §8 example) it yields `(start_line, paragraph_text)` pairs where a
paragraph is a maximal contiguous run of non-blank lines, `start_line`
is the 1-based line number of its first line, blank lines are never part
of a paragraph, and the paragraph text is the verbatim run of lines with
their newline terminators as present in the input — the spec's example:
`"a\n\n\nb\n"` segments into `[(1, "a\n"), (4, "b\n")]`. -/

/-- Modelled from the spec: single pass over the line chunks, grouping
each maximal run of non-blank lines into one paragraph.  The state is
the current 1-based line number together with the paragraph under
construction (its starting line and its chunks in reverse). -/
def extractAcc : Nat → Option (Nat × List (List Char)) → List (List Char) →
    List (Nat × List Char)
  | _, none, [] => []
  | _, some st, [] => [(st.1, st.2.reverse.flatten)]
  | n, none, l :: rest =>
    if isBlankL l then extractAcc (n + 1) none rest
    else extractAcc (n + 1) (some (n, [l])) rest
  | n, some st, l :: rest =>
    if isBlankL l then (st.1, st.2.reverse.flatten) :: extractAcc (n + 1) none rest
    else extractAcc (n + 1) (some (st.1, l :: st.2)) rest

/-- Modelled from the spec: `extract_paragraphs` of the `i18n_helpers`
crate, yielding the `(start_line, paragraph_text)` pairs of a text
unit. -/
def extract_paragraphs (text : String) : List (Nat × String) :=
  (extractAcc 1 none (lineSplitL text.data)).map (fun pr => (pr.1, String.mk pr.2))

/-! ## Translator -/

/-- Number of newline characters, as a string. -/
def newlines (k : Nat) : String := String.mk (List.replicate k '\n')

/-- Embeds `text.ends_with('\n')`. -/
def endsNewline (s : String) : Bool := decide (s.data.getLast? = some '\n')

/-- One iteration of the `for` loop of `translate`: emit one blank line
per line of gap before the paragraph (`while current_lineno < lineno`),
advance the cursor by the paragraph's line count, and append the
translated paragraph. -/
def translateStep (catalog : Catalog) (acc : String × Nat) (pr : Nat × String) :
    String × Nat :=
  (acc.1 ++ newlines (pr.1 - acc.2) ++ translateParagraph catalog pr.2,
   max acc.2 pr.1 + linesCount pr.2)

/-- The output accumulated by the `for` loop of `translate`, before the
final trailing-newline step. -/
def preTranslate (text : String) (catalog : Catalog) : String :=
  (List.foldl (translateStep catalog) ("", 1) (extract_paragraphs text)).1

/-- Embeds `translate` (lines 38–65 of `mdbook-gettext.rs`): run the
paragraph loop, then push one final newline when the input text ends
with one. -/
def translate (text : String) (catalog : Catalog) : String :=
  if endsNewline text then preTranslate text catalog ++ "\n"
  else preTranslate text catalog

/-! ## A recursion-friendly view of the segmenter

`extractSpec` computes the same paragraph list as `extractAcc`, phrased
through `splitRun` (split off the maximal non-blank run), which is the
shape the spec describes and the shape the proofs below recurse on. -/

/-- Split off the maximal prefix of non-blank chunks. -/
def splitRun : List (List Char) → List (List Char) × List (List Char)
  | [] => ([], [])
  | l :: rest =>
    if isBlankL l then ([], l :: rest)
    else
      let p := splitRun rest
      (l :: p.1, p.2)

theorem splitRun_snd_length : ∀ xs : List (List Char),
    (splitRun xs).2.length ≤ xs.length := by
  intro xs
  induction xs with
  | nil => exact Nat.le_refl 0
  | cons l rest ih =>
    rw [splitRun]
    split
    · exact Nat.le_refl _
    · exact Nat.le_trans ih (Nat.le_succ _)

/-- Paragraph extraction in maximal-run form: skip blank lines, then
take the maximal non-blank run as one paragraph. -/
def extractSpec : Nat → List (List Char) → List (Nat × List Char)
  | _, [] => []
  | n, l :: rest =>
    if isBlankL l then extractSpec (n + 1) rest
    else
      let p := splitRun rest
      (n, (l :: p.1).flatten) :: extractSpec (n + 1 + p.1.length) p.2
termination_by _ cs => cs.length
decreasing_by
  · simp only [List.length_cons]
    exact Nat.lt_succ_of_le (Nat.le_refl _)
  · simp only [List.length_cons]
    exact Nat.lt_succ_of_le (splitRun_snd_length rest)

theorem extractAcc_eq_spec :
    ∀ (cs : List (List Char)) (n : Nat) (st : Option (Nat × List (List Char))),
    extractAcc n st cs =
      match st with
      | none => extractSpec n cs
      | some st =>
        (st.1, (st.2.reverse ++ (splitRun cs).1).flatten) ::
          extractSpec (n + (splitRun cs).1.length) (splitRun cs).2 := by
  intro cs
  induction cs with
  | nil =>
    intro n st
    cases st with
    | none => simp [extractAcc, extractSpec]
    | some st => simp [extractAcc, splitRun, extractSpec]
  | cons l rest ih =>
    intro n st
    cases st with
    | none =>
      by_cases hb : isBlankL l
      · rw [extractAcc, if_pos hb, ih, extractSpec, if_pos hb]
      · rw [extractAcc, if_neg hb, ih, extractSpec, if_neg hb]
        simp only [splitRun, if_neg hb]
        simp [Nat.add_assoc, Nat.add_comm 1]
    | some st =>
      by_cases hb : isBlankL l
      · rw [extractAcc, if_pos hb, ih]
        simp only [splitRun, if_pos hb]
        simp [extractSpec, if_pos hb]
      · rw [extractAcc, if_neg hb, ih]
        simp only [splitRun, if_neg hb]
        simp only [List.reverse_cons, List.length_cons]
        rw [List.append_assoc, List.singleton_append]
        ring_nf

/-! ## The loop as a recursive rendering function -/

theorem strMk_append (a b : List Char) :
    String.mk a ++ String.mk b = String.mk (a ++ b) := rfl

theorem strAppend_assoc (a b c : String) : a ++ b ++ c = a ++ (b ++ c) := by
  cases a with | mk la => cases b with | mk lb => cases c with | mk lc =>
  rw [strMk_append, strMk_append, strMk_append, strMk_append,
    List.append_assoc]

theorem str_nil_append (s : String) : "" ++ s = s := by
  cases s with | mk l => rfl

theorem str_append_nil (s : String) : s ++ "" = s := by
  cases s with | mk l => exact congrArg String.mk (List.append_nil l)

/-- The string produced by the rest of the `for` loop of `translate`,
starting from a given cursor: gap newlines, translated paragraph,
recursion with the advanced cursor. -/
def renderS (catalog : Catalog) : Nat → List (Nat × String) → String
  | _, [] => ""
  | cursor, pr :: rest =>
    newlines (pr.1 - cursor) ++ translateParagraph catalog pr.2 ++
      renderS catalog (max cursor pr.1 + linesCount pr.2) rest

theorem foldl_translateStep (catalog : Catalog) :
    ∀ (prs : List (Nat × String)) (out : String) (cursor : Nat),
    (List.foldl (translateStep catalog) (out, cursor) prs).1 =
      out ++ renderS catalog cursor prs := by
  intro prs
  induction prs with
  | nil => intro out cursor; rw [List.foldl_nil, renderS, str_append_nil]
  | cons pr rest ih =>
    intro out cursor
    rw [List.foldl_cons, renderS]
    show (List.foldl (translateStep catalog)
      (out ++ newlines (pr.1 - cursor) ++ translateParagraph catalog pr.2,
        max cursor pr.1 + linesCount pr.2) rest).1 = _
    rw [ih, strAppend_assoc, strAppend_assoc, strAppend_assoc]

/-- Per-paragraph translation at the character-list level. -/
def tpL (catalog : Catalog) (p : List Char) : List Char :=
  (translateParagraph catalog (String.mk p)).data

/-- `renderS` at the character-list level. -/
def renderL (catalog : Catalog) : Nat → List (Nat × List Char) → List Char
  | _, [] => []
  | cursor, pr :: rest =>
    List.replicate (pr.1 - cursor) '\n' ++ tpL catalog pr.2 ++
      renderL catalog (max cursor pr.1 + (lineSplitL pr.2).length) rest

theorem renderS_map_mk (catalog : Catalog) :
    ∀ (prs : List (Nat × List Char)) (cursor : Nat),
    renderS catalog cursor (prs.map (fun pr => (pr.1, String.mk pr.2))) =
      String.mk (renderL catalog cursor prs) := by
  intro prs
  induction prs with
  | nil => intro cursor; rfl
  | cons pr rest ih =>
    intro cursor
    rw [List.map_cons, renderS, renderL, ih]
    rfl

/-- The loop output of `translate`, characterized through `extractSpec`
and `renderL`. -/
theorem preTranslate_eq (text : String) (catalog : Catalog) :
    preTranslate text catalog =
      String.mk (renderL catalog 1 (extractSpec 1 (lineSplitL text.data))) := by
  rw [preTranslate, extract_paragraphs, extractAcc_eq_spec]
  rw [foldl_translateStep, renderS_map_mk, str_nil_append]

/-! ## Trailing blank lines and reconstruction -/

/-- The chunk list contains at least one paragraph line. -/
def hasParaL (cs : List (List Char)) : Bool := cs.any (fun l => !isBlankL l)

/-- Drop the trailing run of blank lines. -/
def dtbL (cs : List (List Char)) : List (List Char) :=
  (cs.reverse.dropWhile isBlankL).reverse

theorem hasParaL_cons_blank {l : List Char} {rest : List (List Char)}
    (h : isBlankL l = true) : hasParaL (l :: rest) = hasParaL rest := by
  simp [hasParaL, h]

theorem hasParaL_cons_nonblank {l : List Char} {rest : List (List Char)}
    (h : isBlankL l = false) : hasParaL (l :: rest) = true := by
  simp [hasParaL]
  exact Or.inl h

theorem dropWhile_blank_ne_nil {cs : List (List Char)} (h : hasParaL cs = true) :
    cs.dropWhile isBlankL ≠ [] := by
  induction cs with
  | nil => simp [hasParaL] at h
  | cons l rest ih =>
    by_cases hb : isBlankL l
    · rw [List.dropWhile_cons_of_pos hb]
      exact ih (by rwa [hasParaL_cons_blank hb] at h)
    · rw [List.dropWhile_cons_of_neg hb]
      simp

theorem hasParaL_reverse (cs : List (List Char)) :
    hasParaL cs.reverse = hasParaL cs := by
  simp [hasParaL]

theorem dtbL_append_hasPara {a b : List (List Char)} (h : hasParaL b = true) :
    dtbL (a ++ b) = a ++ dtbL b := by
  unfold dtbL
  rw [List.reverse_append, List.dropWhile_append]
  have hne : b.reverse.dropWhile isBlankL ≠ [] :=
    dropWhile_blank_ne_nil (by rwa [hasParaL_reverse])
  rw [if_neg (by simpa using hne)]
  rw [List.reverse_append, List.reverse_reverse]

theorem dtbL_all_blank {cs : List (List Char)} (h : ∀ l ∈ cs, isBlankL l = true) :
    dtbL cs = [] := by
  unfold dtbL
  have : cs.reverse.dropWhile isBlankL = [] := by
    have h2 : cs.reverse = cs.reverse ++ [] := by simp
    rw [h2, List.dropWhile_append_of_pos
      (by intro a hamem; exact h a (List.mem_reverse.mp hamem))]
    rfl
  simp [this]

theorem dtbL_append_no_para {a b : List (List Char)} (ha : a ≠ [])
    (hal : ∀ l ∈ a, isBlankL l = false) (hb : hasParaL b = false) :
    dtbL (a ++ b) = a := by
  unfold dtbL
  have hball : ∀ l ∈ b.reverse, isBlankL l = true := by
    intro l hl
    rw [List.mem_reverse] at hl
    by_contra hcon
    have : hasParaL b = true := by
      simp [hasParaL]
      exact ⟨l, hl, by simpa using hcon⟩
    simp [this] at hb
  rw [List.reverse_append, List.dropWhile_append_of_pos hball]
  rcases List.eq_nil_or_concat a with h | ⟨as, x, h⟩
  · exact absurd h ha
  · subst h
    rw [List.concat_eq_append, List.reverse_concat]
    rw [List.dropWhile_cons_of_neg (by simp [hal x (by simp)])]
    rw [List.reverse_cons, List.reverse_reverse]

theorem dtbL_nonblank_head {cs : List (List Char)}
    (h : hasParaL cs = true) (l : List Char) :
    dtbL (l :: cs) = l :: dtbL cs := by
  have : l :: cs = [l] ++ cs := rfl
  rw [this, dtbL_append_hasPara h]
  rfl

theorem splitRun_decomp : ∀ xs : List (List Char),
    xs = (splitRun xs).1 ++ (splitRun xs).2 := by
  intro xs
  induction xs with
  | nil => rfl
  | cons l rest ih =>
    rw [splitRun]
    split
    · rfl
    · simp only [List.cons_append]
      exact congrArg (l :: ·) ih

theorem splitRun_fst_nonblank : ∀ xs : List (List Char),
    ∀ l ∈ (splitRun xs).1, isBlankL l = false := by
  intro xs
  induction xs with
  | nil => intro l hl; simp [splitRun] at hl
  | cons m rest ih =>
    intro l hl
    rw [splitRun] at hl
    split at hl
    · simp at hl
    · rename_i hm
      rcases List.mem_cons.mp hl with h | h
      · subst h; simpa using hm
      · exact ih l h

theorem chained_of_append_left {a b : List (List Char)}
    (h : ChainedL (a ++ b)) : ChainedL a := by
  induction a with
  | nil => trivial
  | cons x a2 ih =>
    cases a2 with
    | nil => trivial
    | cons y a3 =>
      exact ⟨h.1, ih (chainedL_of_cons h)⟩

theorem chained_of_append_right {a b : List (List Char)}
    (h : ChainedL (a ++ b)) : ChainedL b := by
  induction a with
  | nil => exact h
  | cons x a2 ih => exact ih (chainedL_of_cons h)

/-- The reconstruction theorem: when every extracted paragraph is left
unchanged by the catalog, the loop output is exactly the input's lines
up to and including the last non-blank line, preceded by the pending gap
newlines (and nothing at all when the text unit has no paragraph, so
trailing blank lines are dropped). -/
theorem renderL_reconstruct (catalog : Catalog) :
    ∀ (k : Nat) (cs : List (List Char)), cs.length ≤ k →
    ∀ (n cursor : Nat), WfChunks cs → cursor ≤ n →
    (∀ pr ∈ extractSpec n cs, tpL catalog pr.2 = pr.2) →
    renderL catalog cursor (extractSpec n cs) =
      if hasParaL cs then List.replicate (n - cursor) '\n' ++ (dtbL cs).flatten
      else [] := by
  intro k
  induction k with
  | zero =>
    intro cs hk n cursor _ _ _
    have : cs = [] := List.eq_nil_of_length_eq_zero (Nat.le_zero.mp hk)
    subst this
    simp [extractSpec, renderL, hasParaL]
  | succ k ih =>
    intro cs hk n cursor hwf hcur hmiss
    cases cs with
    | nil => simp [extractSpec, renderL, hasParaL]
    | cons l rest =>
      by_cases hb : isBlankL l
      · rw [extractSpec, if_pos hb]
        have hrest : rest.length ≤ k := Nat.le_of_succ_le_succ hk
        have hwfrest : WfChunks rest :=
          ⟨fun m hm => hwf.1 m (by simp [hm]), chainedL_of_cons hwf.2⟩
        have hmiss2 : ∀ pr ∈ extractSpec (n + 1) rest, tpL catalog pr.2 = pr.2 := by
          intro pr hpr
          apply hmiss
          rw [extractSpec, if_pos hb]
          exact hpr
        rw [ih rest hrest (n + 1) cursor hwfrest (Nat.le_succ_of_le hcur) hmiss2]
        rw [hasParaL_cons_blank hb]
        by_cases hp : hasParaL rest
        · rw [if_pos hp, if_pos hp]
          have hlb : l = ['\n'] := by simpa [isBlankL] using hb
          rw [dtbL_nonblank_head hp, hlb]
          have harith : n + 1 - cursor = (n - cursor) + 1 := by omega
          rw [harith, List.replicate_succ']
          simp [List.append_assoc]
        · rw [if_neg hp, if_neg hp]
      · rw [extractSpec, if_neg hb]
        simp only []
        have hdec := splitRun_decomp rest
        have hwfrest : WfChunks rest :=
          ⟨fun m hm => hwf.1 m (by simp [hm]), chainedL_of_cons hwf.2⟩
        have hwfpara : WfChunks (l :: (splitRun rest).1) := by
          refine ⟨?_, ?_⟩
          · intro m hm
            rcases List.mem_cons.mp hm with h | h
            · exact hwf.1 m (by simp [h])
            · refine hwf.1 m (List.mem_cons_of_mem l ?_)
              rw [hdec]
              exact List.mem_append_left _ h
          · have : ChainedL ((l :: (splitRun rest).1) ++ (splitRun rest).2) := by
              rw [List.cons_append, ← hdec]
              exact hwf.2
            exact chained_of_append_left this
        have hlines : lineSplitL ((l :: (splitRun rest).1).flatten)
            = l :: (splitRun rest).1 := lineSplitL_flatten hwfpara
        have hmem : ((n, (l :: (splitRun rest).1).flatten) : Nat × List Char)
            ∈ extractSpec n (l :: rest) := by
          rw [extractSpec, if_neg hb]
          simp only []
          exact List.mem_cons_self _ _
        have hpara : tpL catalog ((l :: (splitRun rest).1).flatten)
            = (l :: (splitRun rest).1).flatten := hmiss _ hmem
        rw [renderL, hpara, hlines]
        have hmax : max cursor n = n := Nat.max_eq_right hcur
        have harith : max cursor n + (l :: (splitRun rest).1).length
            = n + 1 + (splitRun rest).1.length := by
          rw [hmax, List.length_cons]
          omega
        rw [harith]
        have hlen2 : (splitRun rest).2.length ≤ k :=
          Nat.le_trans (splitRun_snd_length rest) (Nat.le_of_succ_le_succ hk)
        have hwfrest2 : WfChunks (splitRun rest).2 := by
          refine ⟨?_, ?_⟩
          · intro m hm
            refine hwfrest.1 m ?_
            rw [hdec]
            exact List.mem_append_right _ hm
          · have : ChainedL ((splitRun rest).1 ++ (splitRun rest).2) := by
              rw [← hdec]; exact hwfrest.2
            exact chained_of_append_right this
        have hmiss2 : ∀ pr ∈ extractSpec (n + 1 + (splitRun rest).1.length)
            (splitRun rest).2, tpL catalog pr.2 = pr.2 := by
          intro pr hpr
          apply hmiss
          rw [extractSpec, if_neg hb]
          simp only []
          exact List.mem_cons_of_mem _ hpr
        rw [ih (splitRun rest).2 hlen2 (n + 1 + (splitRun rest).1.length)
          (n + 1 + (splitRun rest).1.length) hwfrest2 (Nat.le_refl _) hmiss2]
        rw [Nat.sub_self, List.replicate_zero]
        rw [hasParaL_cons_nonblank (by simpa using hb)]
        by_cases hp : hasParaL (splitRun rest).2
        · rw [if_pos hp]
          have : dtbL (l :: rest) = (l :: (splitRun rest).1) ++ dtbL (splitRun rest).2 := by
            conv_lhs => rw [hdec]
            rw [← List.cons_append]
            exact dtbL_append_hasPara hp
          rw [this, List.flatten_append]
          simp [List.append_assoc]
        · rw [if_neg hp]
          have : dtbL (l :: rest) = l :: (splitRun rest).1 := by
            conv_lhs => rw [hdec]
            rw [← List.cons_append]
            refine dtbL_append_no_para (by simp) ?_ (by simpa using hp)
            intro m hm
            rcases List.mem_cons.mp hm with h | h
            · subst h; simpa using hb
            · exact splitRun_fst_nonblank rest m h
          rw [this]
          simp

/-! ## Trailing-newline analysis -/

/-- The trailing run of blank lines. -/
def tbL (cs : List (List Char)) : List (List Char) :=
  (cs.reverse.takeWhile isBlankL).reverse

theorem dtbL_append_tbL (cs : List (List Char)) : dtbL cs ++ tbL cs = cs := by
  unfold dtbL tbL
  rw [← List.reverse_append, List.takeWhile_append_dropWhile, List.reverse_reverse]

theorem tbL_blank {cs : List (List Char)} : ∀ l ∈ tbL cs, isBlankL l = true := by
  intro l hl
  unfold tbL at hl
  rw [List.mem_reverse] at hl
  exact List.mem_takeWhile_imp hl

theorem dtbL_subset {cs : List (List Char)} : ∀ l ∈ dtbL cs, l ∈ cs := by
  intro l hl
  rw [← dtbL_append_tbL cs]
  exact List.mem_append_left _ hl

theorem flatten_blank {cs : List (List Char)}
    (h : ∀ l ∈ cs, isBlankL l = true) :
    cs.flatten = List.replicate cs.length '\n' := by
  induction cs with
  | nil => rfl
  | cons l rest ih =>
    have hl : l = ['\n'] := by simpa [isBlankL] using h l (by simp)
    rw [List.flatten_cons, hl, ih (fun m hm => h m (by simp [hm]))]
    rfl

theorem hasParaL_eq_false_iff (cs : List (List Char)) :
    hasParaL cs = false ↔ ∀ l ∈ cs, isBlankL l = true := by
  unfold hasParaL
  simp

/-- The last character of a flattened well-formed chunk list is the last
character of its last chunk. -/
theorem getLastQ_flatten {cs : List (List Char)} {x : List Char}
    (hwf : WfChunks cs) (hx : cs.getLast? = some x) :
    cs.flatten.getLast? = x.getLast? := by
  rcases List.eq_nil_or_concat cs with h | ⟨init, y, h⟩
  · subst h; simp at hx
  · subst h
    rw [List.concat_eq_append] at hx ⊢
    have hy : y = x := by
      rw [List.getLast?_append_of_ne_nil init (by simp)] at hx
      simpa using hx
    subst hy
    have hyne : y ≠ [] := (hwf.1 y (by simp)).1
    rw [List.flatten_append]
    simp only [List.flatten_cons, List.flatten_nil, List.append_nil]
    rw [List.getLast?_append_of_ne_nil _ hyne]

theorem flatten_ne_nil {cs : List (List Char)} (hwf : WfChunks cs)
    (hne : cs ≠ []) : cs.flatten ≠ [] := by
  rcases List.eq_nil_or_concat cs with h | ⟨init, y, h⟩
  · exact absurd h hne
  · subst h
    have hyne : y ≠ [] := (hwf.1 y (by simp)).1
    rw [List.concat_eq_append, List.flatten_append]
    simp only [List.flatten_cons, List.flatten_nil, List.append_nil]
    intro hcon
    exact hyne (List.append_eq_nil.mp hcon).2

/-- When the text does not end in a newline, it has no trailing blank
lines at all. -/
theorem dtbL_eq_self_of_not_term {cs : List (List Char)}
    (hwf : WfChunks cs)
    (hlast : cs.flatten.getLast? ≠ some '\n') : dtbL cs = cs := by
  rcases List.eq_nil_or_concat cs with h | ⟨init, y, h⟩
  · subst h; rfl
  · subst h
    rw [List.concat_eq_append] at hwf hlast ⊢
    have hx : (init ++ [y]).getLast? = some y := by
      rw [List.getLast?_append_of_ne_nil init (by simp)]; rfl
    have hynb : isBlankL y = false := by
      by_contra hcon
      have hy : y = ['\n'] := by simpa [isBlankL] using hcon
      subst hy
      exact hlast (by rw [getLastQ_flatten hwf hx]; rfl)
    unfold dtbL
    rw [List.reverse_concat]
    rw [List.dropWhile_cons_of_neg (by simp [hynb])]
    rw [List.reverse_cons, List.reverse_reverse]

/-- Every chunk of a well-formed list whose flattening ends in a newline
is newline-terminated. -/
theorem allTerm_of_flatten_term : ∀ {cs : List (List Char)}, WfChunks cs →
    cs.flatten.getLast? = some '\n' → ∀ l ∈ cs, IsTermL l := by
  intro cs
  induction cs with
  | nil => intro _ _ l hl; simp at hl
  | cons x rest ih =>
    intro hwf hterm l hl
    have hwfrest : WfChunks rest :=
      ⟨fun m hm => hwf.1 m (by simp [hm]), chainedL_of_cons hwf.2⟩
    cases hr : rest with
    | nil =>
      subst hr
      rcases List.mem_cons.mp hl with h | h
      · subst h
        simpa [IsTermL] using hterm
      · simp at h
    | cons r rs =>
      subst hr
      have hfne : (r :: rs).flatten ≠ [] := flatten_ne_nil hwfrest (by simp)
      have hterm2 : (r :: rs).flatten.getLast? = some '\n' := by
        rw [List.flatten_cons, List.getLast?_append_of_ne_nil _ hfne] at hterm
        exact hterm
      rcases List.mem_cons.mp hl with h | h
      · subst h
        exact isTermL_of_chained hwf.2 (by simp)
      · exact ih hwfrest hterm2 l h

theorem chained_allTerm_append {a b : List (List Char)}
    (ha : ∀ l ∈ a, IsTermL l) (hb : ChainedL b) : ChainedL (a ++ b) := by
  induction a with
  | nil => exact hb
  | cons x a2 ih =>
    rw [List.cons_append]
    refine chainedL_cons (Or.inr (ha x (by simp))) ?_
    exact ih (fun l hl => ha l (by simp [hl]))

/-! ## String-level consequences for `translate` -/

/-- Strip the trailing run of newline characters. -/
def trimNewlines (s : String) : String :=
  String.mk ((s.data.reverse.dropWhile (fun ch => decide (ch = '\n'))).reverse)

theorem trimNewlines_append_newlines (x : List Char) (m : Nat) :
    trimNewlines (String.mk (x ++ List.replicate m '\n')) =
      trimNewlines (String.mk x) := by
  unfold trimNewlines
  apply congrArg String.mk
  apply congrArg List.reverse
  rw [List.reverse_append, List.reverse_replicate]
  rw [List.dropWhile_append_of_pos]
  intro a ha
  simp [List.eq_of_mem_replicate ha]

/-- The number of input lines up to and including the last non-blank
line of a text unit. -/
def linesToLastPara (text : String) : Nat :=
  (dtbL (lineSplitL text.data)).length

/-- `translate` on a text unit none of whose paragraphs matches the
catalog, in closed form: the lines up to the last non-blank line,
followed by one newline if the input ends with one (trailing blank
lines collapse; an input with no paragraph at all gives at most one
newline). -/
theorem translate_nomatch (text : String) (catalog : Catalog)
    (hmiss : ∀ pr ∈ extract_paragraphs text, find_message catalog pr.2 = none) :
    translate text catalog =
      (if endsNewline text
        then String.mk ((dtbL (lineSplitL text.data)).flatten ++ ['\n'])
        else String.mk (dtbL (lineSplitL text.data)).flatten) := by
  have hmissL : ∀ pr ∈ extractSpec 1 (lineSplitL text.data),
      tpL catalog pr.2 = pr.2 := by
    intro pr hpr
    have hmem : (pr.1, String.mk pr.2) ∈ extract_paragraphs text := by
      rw [extract_paragraphs, extractAcc_eq_spec]
      exact List.mem_map_of_mem _ hpr
    have := hmiss _ hmem
    unfold tpL translateParagraph
    rw [this]
  have hwf := wf_lineSplitL text.data
  have hrec := renderL_reconstruct catalog (lineSplitL text.data).length
    (lineSplitL text.data) (Nat.le_refl _) 1 1 hwf (Nat.le_refl 1) hmissL
  rw [Nat.sub_self, List.replicate_zero, List.nil_append] at hrec
  by_cases hp : hasParaL (lineSplitL text.data)
  · rw [if_pos hp] at hrec
    rw [translate, preTranslate_eq, hrec]
    split
    · rfl
    · rfl
  · rw [if_neg hp] at hrec
    have hpf : hasParaL (lineSplitL text.data) = false := by
      simpa using hp
    have hblank : ∀ l ∈ lineSplitL text.data, isBlankL l = true :=
      (hasParaL_eq_false_iff _).mp hpf
    have hdtb : dtbL (lineSplitL text.data) = [] := dtbL_all_blank hblank
    rw [translate, preTranslate_eq, hrec, hdtb]
    split
    · rfl
    · rfl

theorem string_eta (s : String) : String.mk s.data = s := rfl

theorem endsNewline_true_iff (s : String) :
    endsNewline s = true ↔ s.data.getLast? = some '\n' := by
  simp [endsNewline]

theorem endsNewline_false_iff (s : String) :
    endsNewline s = false ↔ s.data.getLast? ≠ some '\n' := by
  simp [endsNewline]

/-- Decomposition of a text unit: the lines up to the last non-blank
line, followed by the trailing blank lines. -/
theorem text_data_decomp (text : String) :
    text.data = (dtbL (lineSplitL text.data)).flatten ++
      List.replicate (tbL (lineSplitL text.data)).length '\n' := by
  conv_lhs => rw [← joinL_lineSplitL text.data,
    ← dtbL_append_tbL (lineSplitL text.data)]
  rw [List.flatten_append, flatten_blank (@tbL_blank (lineSplitL text.data))]

theorem extractSpec_blank : ∀ (cs : List (List Char)),
    (∀ l ∈ cs, isBlankL l = true) → ∀ n, extractSpec n cs = [] := by
  intro cs
  induction cs with
  | nil => intro _ n; simp [extractSpec]
  | cons l rest ih =>
    intro h n
    rw [extractSpec, if_pos (h l (by simp))]
    exact ih (fun m hm => h m (by simp [hm])) (n + 1)

/-! ## Claim C3 -/

/-- C3: translating any text against a catalog in which no paragraph of
the text has a matching entry returns the input unchanged modulo
trailing-newline normalization — after stripping trailing newlines, the
output equals the input. -/
theorem C3_identity_on_misses (text : String) (catalog : Catalog)
    (hmiss : ∀ pr ∈ extract_paragraphs text, find_message catalog pr.2 = none) :
    trimNewlines (translate text catalog) = trimNewlines text := by
  have hdecomp : String.mk text.data =
      String.mk ((dtbL (lineSplitL text.data)).flatten ++
        List.replicate (tbL (lineSplitL text.data)).length '\n') :=
    congrArg String.mk (text_data_decomp text)
  have htext : trimNewlines text =
      trimNewlines (String.mk ((dtbL (lineSplitL text.data)).flatten)) := by
    conv_lhs => rw [← string_eta text]
    rw [hdecomp]
    exact trimNewlines_append_newlines _ _
  rw [translate_nomatch text catalog hmiss, htext]
  by_cases he : endsNewline text = true
  · rw [if_pos he]
    exact trimNewlines_append_newlines ((dtbL (lineSplitL text.data)).flatten) 1
  · rw [if_neg he]

/-- Witness for C3 at a concrete input. -/
theorem C3_identity_on_misses_witness :
    trimNewlines (translate "a\nb\n\n" [("x", "y")]) = trimNewlines "a\nb\n\n" :=
  C3_identity_on_misses "a\nb\n\n" [("x", "y")] (by decide)

/-! ## Claim C10 -/

/-- C10: a text unit with no non-blank line (empty, or consisting solely
of blank lines) translates to `"\n"` when it ends with a newline and to
`""` otherwise, for every catalog: blank lines after the last paragraph
are not reproduced. -/
theorem C10_blank_unit (text : String) (catalog : Catalog)
    (h : hasParaL (lineSplitL text.data) = false) :
    translate text catalog = (if text = "" then "" else "\n") := by
  have hblank := (hasParaL_eq_false_iff _).mp h
  have hspec : extractSpec 1 (lineSplitL text.data) = [] :=
    extractSpec_blank _ hblank 1
  have hpre : preTranslate text catalog = "" := by
    rw [preTranslate_eq, hspec]; rfl
  by_cases ht : text = ""
  · subst ht
    rw [if_pos rfl, translate, hpre, if_neg (by decide)]
  · rw [if_neg ht]
    have hne : lineSplitL text.data ≠ [] := by
      intro hcon
      have hdata : text.data = [] := (lineSplitL_nil_iff _).mp hcon
      exact ht (by rw [← string_eta text, hdata])
    rcases List.eq_nil_or_concat (lineSplitL text.data) with hc | ⟨init, y, hc⟩
    · exact absurd hc hne
    · have hy : y = ['\n'] := by
        simpa [isBlankL] using hblank y (by rw [hc]; simp)
      have hgl : (lineSplitL text.data).getLast? = some y := by
        rw [hc, List.concat_eq_append,
          List.getLast?_append_of_ne_nil init (by simp)]
        rfl
      have hterm : text.data.getLast? = some '\n' := by
        have h2 := getLastQ_flatten (wf_lineSplitL text.data) hgl
        rw [joinL_lineSplitL] at h2
        rw [h2, hy]
        rfl
      have he : endsNewline text = true := (endsNewline_true_iff text).mpr hterm
      rw [translate, hpre, if_pos he, str_nil_append]

/-- Witness for C10 at a concrete input. -/
theorem C10_blank_unit_witness :
    translate "\n\n" [("a", "b")] = (if ("\n\n" : String) = "" then "" else "\n") :=
  C10_blank_unit "\n\n" [("a", "b")] (by decide)

/-! ## Claim C5 -/

/-- C5 (amended): with a catalog producing no matches, the output's line
count equals the input's when the input does not end with a newline;
when it does end with a newline, the output has exactly the input's
lines up to and including its last non-blank line, plus one. -/
theorem C5_line_count (text : String) (catalog : Catalog)
    (hmiss : ∀ pr ∈ extract_paragraphs text, find_message catalog pr.2 = none) :
    linesCount (translate text catalog) =
      (if endsNewline text then linesToLastPara text + 1 else linesCount text) := by
  rw [translate_nomatch text catalog hmiss]
  by_cases he : endsNewline text = true
  · rw [if_pos he, if_pos he]
    have hterm : (lineSplitL text.data).flatten.getLast? = some '\n' := by
      rw [joinL_lineSplitL]
      exact (endsNewline_true_iff text).mp he
    have hall : ∀ l ∈ dtbL (lineSplitL text.data), IsTermL l := fun l hl =>
      allTerm_of_flatten_term (wf_lineSplitL _) hterm l (dtbL_subset l hl)
    have hwf2 : WfChunks (dtbL (lineSplitL text.data) ++ [['\n']]) := by
      refine ⟨?_, chained_allTerm_append hall trivial⟩
      intro l hl
      rcases List.mem_append.mp hl with hm | hm
      · exact (wf_lineSplitL text.data).1 l (dtbL_subset l hm)
      · simp only [List.mem_singleton] at hm
        subst hm
        exact ⟨by simp, by simp⟩
    have hsplit : lineSplitL ((dtbL (lineSplitL text.data)).flatten ++ ['\n'])
        = dtbL (lineSplitL text.data) ++ [['\n']] := by
      have h2 := lineSplitL_flatten hwf2
      rw [List.flatten_append] at h2
      simpa using h2
    unfold linesCount linesToLastPara
    rw [show (String.mk ((dtbL (lineSplitL text.data)).flatten ++ ['\n'])).data
      = (dtbL (lineSplitL text.data)).flatten ++ ['\n'] from rfl]
    rw [hsplit]
    simp
  · rw [if_neg he, if_neg he]
    have hnl : text.data.getLast? ≠ some '\n' :=
      (endsNewline_false_iff text).mp (by simpa using he)
    have hdtb : dtbL (lineSplitL text.data) = lineSplitL text.data :=
      dtbL_eq_self_of_not_term (wf_lineSplitL _) (by rwa [joinL_lineSplitL])
    rw [hdtb]
    rw [show String.mk (lineSplitL text.data).flatten = text from by
      rw [joinL_lineSplitL]]

/-- Witness for C5 at a concrete input with trailing blank lines. -/
theorem C5_line_count_witness :
    linesCount (translate "a\n\n\n" []) =
      (if endsNewline "a\n\n\n" then linesToLastPara "a\n\n\n" + 1
        else linesCount "a\n\n\n") :=
  C5_line_count "a\n\n\n" [] (by decide)

/-- C5 counterexample: on input `"a\n"` (with no catalog matches) the
output has 2 lines while the input has 1, so the claimed line-count
invariant fails. -/
theorem C5_counterexample :
    linesCount (translate "a\n" []) ≠ linesCount "a\n" := by decide

/-! ## Claim C7 -/

theorem translateParagraph_none {catalog : Catalog} {p : String}
    (h : find_message catalog p = none) : translateParagraph catalog p = p := by
  unfold translateParagraph
  rw [h]

theorem translateParagraph_some {catalog : Catalog} {p t : String}
    (h : find_message catalog p = some t) (ht : t ≠ "") :
    translateParagraph catalog p = t := by
  unfold translateParagraph
  rw [h]
  exact if_neg ht

theorem translateParagraph_some_empty {catalog : Catalog} {p : String}
    (h : find_message catalog p = some "") : translateParagraph catalog p = p := by
  unfold translateParagraph
  rw [h]
  simp

theorem find_message_mem {catalog : Catalog} {m t : String}
    (h : find_message catalog m = some t) : ∃ e ∈ catalog, e.2 = t := by
  unfold find_message at h
  rcases hf : List.find? (fun e => decide (e.1 = m)) catalog with _ | e
  · rw [hf] at h
    exact Option.noConfusion h
  · rw [hf] at h
    exact ⟨e, List.mem_of_find?_eq_some hf, by injection h⟩

theorem strData_ne_nil {t : String} (h : t ≠ "") : t.data ≠ [] := by
  intro hcon
  exact h (by rw [← string_eta t, hcon])

/-- When the input's last line is not newline-terminated and no msgstr
of the catalog ends in a newline, the loop output is nonempty and does
not end in a newline. -/
theorem renderL_not_term (catalog : Catalog)
    (hcat : ∀ e ∈ catalog, e.2.data.getLast? ≠ some '\n') :
    ∀ (k : Nat) (cs : List (List Char)), cs.length ≤ k →
    ∀ (n cursor : Nat), WfChunks cs → cs ≠ [] →
    (∀ x, cs.getLast? = some x → x.getLast? ≠ some '\n') →
    renderL catalog cursor (extractSpec n cs) ≠ [] ∧
      (renderL catalog cursor (extractSpec n cs)).getLast? ≠ some '\n' := by
  intro k
  induction k with
  | zero =>
    intro cs hk n cursor _ hne _
    exact absurd (List.eq_nil_of_length_eq_zero (Nat.le_zero.mp hk)) hne
  | succ k ih =>
    intro cs hk n cursor hwf hne hlast
    cases cs with
    | nil => exact absurd rfl hne
    | cons l rest =>
      have hwfrest : WfChunks rest :=
        ⟨fun m hm => hwf.1 m (by simp [hm]), chainedL_of_cons hwf.2⟩
      by_cases hb : isBlankL l
      · have hlb : l = ['\n'] := by simpa [isBlankL] using hb
        cases hr : rest with
        | nil =>
          exfalso
          subst hr
          exact hlast l rfl (by rw [hlb]; rfl)
        | cons r rs =>
          subst hr
          rw [extractSpec, if_pos hb]
          refine ih (r :: rs) (Nat.le_of_succ_le_succ hk) (n + 1) cursor hwfrest
            (by simp) ?_
          intro x hx
          exact hlast x (by rw [getLastQ_cons_ne_nil (by simp)]; exact hx)
      · rw [extractSpec, if_neg hb]
        simp only []
        rw [renderL]
        have hdec := splitRun_decomp rest
        cases hr2 : (splitRun rest).2 with
        | nil =>
          rw [show extractSpec (n + 1 + (splitRun rest).1.length) [] = []
            from by simp [extractSpec]]
          rw [show ∀ cur, renderL catalog cur ([] : List (Nat × List Char)) = []
            from fun cur => rfl]
          rw [List.append_nil]
          have hcs : l :: rest = l :: (splitRun rest).1 := by
            conv_lhs => rw [hdec]
            rw [hr2, List.append_nil]
          have hwfpara : WfChunks (l :: (splitRun rest).1) := by
            rw [← hcs]; exact hwf
          rcases hgl : (l :: (splitRun rest).1).getLast? with _ | x
          · rw [List.getLast?_eq_getLast _ (by simp)] at hgl
            exact Option.noConfusion hgl
          · have hx : x.getLast? ≠ some '\n' := by
              refine hlast x ?_
              rw [hcs]
              exact hgl
            have hPl : ((l :: (splitRun rest).1).flatten).getLast? = x.getLast? :=
              getLastQ_flatten hwfpara hgl
            have hPne : (l :: (splitRun rest).1).flatten ≠ [] :=
              flatten_ne_nil hwfpara (by simp)
            have htp : tpL catalog ((l :: (splitRun rest).1).flatten) ≠ [] ∧
                (tpL catalog ((l :: (splitRun rest).1).flatten)).getLast?
                  ≠ some '\n' := by
              unfold tpL
              rcases hf : find_message catalog
                  (String.mk ((l :: (splitRun rest).1).flatten)) with _ | t
              · rw [translateParagraph_none hf]
                refine ⟨hPne, ?_⟩
                show ((l :: (splitRun rest).1).flatten).getLast? ≠ some '\n'
                rw [hPl]
                exact hx
              · by_cases ht : t = ""
                · subst ht
                  rw [translateParagraph_some_empty hf]
                  refine ⟨hPne, ?_⟩
                  show ((l :: (splitRun rest).1).flatten).getLast? ≠ some '\n'
                  rw [hPl]
                  exact hx
                · rw [translateParagraph_some hf ht]
                  rcases find_message_mem hf with ⟨e, he, het⟩
                  refine ⟨strData_ne_nil ht, ?_⟩
                  rw [← het]
                  exact hcat e he
            constructor
            · intro hcon
              exact htp.1 (List.append_eq_nil.mp hcon).2
            · rw [List.getLast?_append_of_ne_nil _ htp.1]
              exact htp.2
        | cons r2 rs2 =>
          have hrdec : rest = (splitRun rest).1 ++ (r2 :: rs2) := by
            conv_lhs => rw [hdec]
            rw [hr2]
          have hlen : (r2 :: rs2).length ≤ k := by
            have h1 := splitRun_snd_length rest
            rw [hr2] at h1
            exact Nat.le_trans h1 (Nat.le_of_succ_le_succ hk)
          have hwf2 : WfChunks (r2 :: rs2) := by
            refine ⟨?_, ?_⟩
            · intro m hm
              refine hwfrest.1 m ?_
              rw [hrdec]
              exact List.mem_append_right _ hm
            · have h2 : ChainedL ((splitRun rest).1 ++ (r2 :: rs2)) := by
                rw [← hrdec]
                exact hwfrest.2
              exact chained_of_append_right h2
          have hrestLast : rest.getLast? = (r2 :: rs2).getLast? := by
            rw [hrdec, List.getLast?_append_of_ne_nil _ (by simp)]
          have hlast2 : ∀ x, (r2 :: rs2).getLast? = some x →
              x.getLast? ≠ some '\n' := by
            intro x hx
            refine hlast x ?_
            rw [getLastQ_cons_ne_nil (by rw [hrdec]; simp), hrestLast]
            exact hx
          have htail := ih (r2 :: rs2) hlen (n + 1 + (splitRun rest).1.length)
            (max cursor n + (lineSplitL (l :: (splitRun rest).1).flatten).length)
            hwf2 (by simp) hlast2
          constructor
          · intro hcon
            exact htail.1 (List.append_eq_nil.mp hcon).2
          · rw [List.getLast?_append_of_ne_nil _ htail.1]
            exact htail.2

/-- C7 (amended): an input that does not end with a newline translates,
against any catalog none of whose msgstr values ends with a newline, to
an output that does not end with a newline. -/
theorem C7_no_trailing_newline (text : String) (catalog : Catalog)
    (htext : endsNewline text = false)
    (hcat : ∀ e ∈ catalog, endsNewline e.2 = false) :
    endsNewline (translate text catalog) = false := by
  rw [translate, if_neg (by simp [htext])]
  by_cases ht : text.data = []
  · have hpre : preTranslate text catalog = "" := by
      rw [preTranslate_eq, (lineSplitL_nil_iff _).mpr ht]
      rw [show extractSpec 1 ([] : List (List Char)) = [] from by
        simp [extractSpec]]
      rfl
    rw [hpre]
    decide
  · have hne : lineSplitL text.data ≠ [] :=
      fun hcon => ht ((lineSplitL_nil_iff _).mp hcon)
    have hcat2 : ∀ e ∈ catalog, e.2.data.getLast? ≠ some '\n' := fun e he =>
      (endsNewline_false_iff _).mp (hcat e he)
    have hlast : ∀ x, (lineSplitL text.data).getLast? = some x →
        x.getLast? ≠ some '\n' := by
      intro x hx hcon
      have h2 := getLastQ_flatten (wf_lineSplitL text.data) hx
      rw [joinL_lineSplitL] at h2
      exact (endsNewline_false_iff text).mp htext (by rw [h2, hcon])
    have hmain := renderL_not_term catalog hcat2 (lineSplitL text.data).length
      (lineSplitL text.data) (Nat.le_refl _) 1 1 (wf_lineSplitL _) hne hlast
    rw [preTranslate_eq, endsNewline_false_iff]
    exact hmain.2

/-- Witness for C7 at a concrete input. -/
theorem C7_no_trailing_newline_witness :
    endsNewline (translate "a" [("a", "X")]) = false :=
  C7_no_trailing_newline "a" [("a", "X")] (by decide) (by decide)

/-- C7 counterexample: the claim as stated quantifies over every
catalog, but a catalog whose msgstr ends with a newline produces an
output ending with a newline from an input that does not. -/
theorem C7_counterexample :
    endsNewline "a" = false ∧
      endsNewline (translate "a" [("a", "X\n")]) = true := by decide

/-! ## Claim C6 -/

/-- C6 (amended): when the input ends with a newline, the output ends
with a newline: the translator appends exactly one final newline to the
loop output unconditionally — also when the last appended segment
already ends with one, in which case the output ends with a doubled
newline. -/
theorem C6_trailing_newline_appended (text : String) (catalog : Catalog)
    (h : endsNewline text = true) :
    translate text catalog = preTranslate text catalog ++ "\n" := by
  rw [translate, if_pos h]

/-- Witness for C6 at a concrete input. -/
theorem C6_trailing_newline_appended_witness :
    translate "a\n" [] = preTranslate "a\n" [] ++ "\n" :=
  C6_trailing_newline_appended "a\n" [] (by decide)

/-- C6 counterexample: on input `"a\n"` the output is `"a\n\n"`, which
does not end with exactly one trailing newline (stripping the trailing
newline run and appending a single newline does not give the output
back). -/
theorem C6_counterexample :
    trimNewlines (translate "a\n" []) ++ "\n" ≠ translate "a\n" [] := by decide

/-! ## Claim C4 -/

/-- C4 counterexample: with no catalog matches, `"a\n\n\nb\n"` does not
translate back to itself — the final newline push doubles the trailing
newline. -/
theorem C4_counterexample :
    translate "a\n\n\nb\n" [] ≠ "a\n\n\nb\n" := by decide

/-- C4 (amended): `"a\n\n\nb\n"` segments into exactly
`[(1, "a\n"), (4, "b\n")]`, and with no catalog matches it translates to
`"a\n\n\nb\n\n"`: both interior blank lines are reproduced in place, and
one extra trailing newline is appended. -/
theorem C4_blank_line_preservation :
    extract_paragraphs "a\n\n\nb\n" = [(1, "a\n"), (4, "b\n")] ∧
      translate "a\n\n\nb\n" [] = "a\n\n\nb\n\n" := by decide

/-! ## Claim C1 -/

/-- C1 (amended): a paragraph whose text — including its newline
terminator — exactly equals a catalog entry's source is replaced by that
entry's target: for every catalog whose lookup of `"Hello\n"` yields the
non-empty target `"Bonjour"`, the input `"Hello\n"` translates to
`"Bonjour\n"`. -/
theorem C1_substitution (catalog : Catalog)
    (h : find_message catalog "Hello\n" = some "Bonjour") :
    translate "Hello\n" catalog = "Bonjour\n" := by
  rw [translate, if_pos (show endsNewline "Hello\n" = true from by decide)]
  rw [preTranslate,
    show extract_paragraphs "Hello\n" = [(1, "Hello\n")] from by decide]
  rw [List.foldl_cons, List.foldl_nil]
  show ("" ++ newlines (1 - 1) ++ translateParagraph catalog "Hello\n") ++ "\n"
    = "Bonjour\n"
  rw [translateParagraph_some h (by decide)]
  decide

/-- Witness for C1 at a concrete catalog. -/
theorem C1_substitution_witness :
    translate "Hello\n" [("Hello\n", "Bonjour")] = "Bonjour\n" :=
  C1_substitution [("Hello\n", "Bonjour")] (by decide)

/-- C1 counterexample: a catalog entry whose source is `"Hello"`
(without the newline) does not match the paragraph `"Hello\n"`, so the
claimed substitution does not happen. -/
theorem C1_counterexample :
    translate "Hello\n" [("Hello", "Bonjour")] ≠ "Bonjour\n" := by decide

/-! ## Claim C2 -/

theorem translateParagraph_single_empty (src p : String) :
    translateParagraph [(src, "")] p = translateParagraph [] p := by
  unfold translateParagraph find_message
  by_cases h : src = p
  · simp [List.find?_cons, h]
  · simp [List.find?_cons, h]

theorem translate_congr {c1 c2 : Catalog}
    (h : ∀ p, translateParagraph c1 p = translateParagraph c2 p)
    (text : String) : translate text c1 = translate text c2 := by
  have hrender : ∀ (prs : List (Nat × String)) (cursor : Nat),
      renderS c1 cursor prs = renderS c2 cursor prs := by
    intro prs
    induction prs with
    | nil => intro cursor; rfl
    | cons pr rest ih =>
      intro cursor
      rw [renderS, renderS, h, ih]
  have hpre : preTranslate text c1 = preTranslate text c2 := by
    rw [preTranslate, preTranslate, foldl_translateStep, foldl_translateStep,
      hrender]
  rw [translate, translate, hpre]

/-- C2 (amended): a present-but-empty translation behaves exactly like a
missing entry — a catalog whose sole entry has an empty target
translates every text exactly as the empty catalog does.  In particular,
with entry source `"Hello"` and target `""`, the input `"Hello\n"`
translates to `"Hello\n\n"`, precisely the output of the empty
catalog (not to `"Hello\n"`: the trailing newline is doubled by the
final newline push, independently of the lookup). -/
theorem C2_empty_target_fallback :
    (∀ (text src : String), translate text [(src, "")] = translate text []) ∧
      translate "Hello\n" [("Hello", "")] = "Hello\n\n" ∧
      translate "Hello\n" [] = "Hello\n\n" := by
  refine ⟨?_, by decide, by decide⟩
  intro text src
  exact translate_congr (translateParagraph_single_empty src) text

/-- C2 counterexample: with catalog entry source `"Hello"`, target `""`,
the input `"Hello\n"` does not translate to `"Hello\n"` (it yields
`"Hello\n\n"`). -/
theorem C2_counterexample :
    translate "Hello\n" [("Hello", "")] ≠ "Hello\n" := by decide

/-! ## The book tree and `translate_book`

The document tree comes from the `mdbook` crate (an excluded
collaborator): a book is a sequence of items, where an item is a chapter
(name, body content, nested sub-items), a separator, or a part title,
and `Book::for_each_mut` visits every item recursively.  Modelled from
the spec as a closed sum type. -/

mutual
inductive BookItem : Type where
  | chapter (name : String) (content : String) (subItems : BookItems)
  | separator : BookItem
  | partTitle (title : String)
inductive BookItems : Type where
  | nil : BookItems
  | cons (head : BookItem) (tail : BookItems)
end

/-- A book: its sequence of top-level items. -/
structure Book : Type where
  sections : BookItems

mutual
/-- Embeds the closure passed to `book.for_each_mut` (lines 85–96 of
`mdbook-gettext.rs`): translate a chapter's content and name, leave a
separator untouched, translate a part title. -/
def translateItem (catalog : Catalog) : BookItem → BookItem
  | .chapter name content subs =>
    .chapter (translate name catalog) (translate content catalog)
      (translateItems catalog subs)
  | .separator => .separator
  | .partTitle title => .partTitle (translate title catalog)
/-- The recursive traversal of `for_each_mut` over an item sequence. -/
def translateItems (catalog : Catalog) : BookItems → BookItems
  | .nil => .nil
  | .cons it rest => .cons (translateItem catalog it) (translateItems catalog rest)
end

/-- The pure traversal part of `translate_book`: translate every
text-bearing node of the book. -/
def forEachTranslate (catalog : Catalog) (book : Book) : Book :=
  ⟨translateItems catalog book.sections⟩

mutual
/-- The structure of an item with all text erased. -/
inductive Shape : Type where
  | chapter (subs : Shapes)
  | separator : Shape
  | partTitle : Shape
inductive Shapes : Type where
  | nil : Shapes
  | cons (head : Shape) (tail : Shapes)
end

mutual
def itemShape : BookItem → Shape
  | .chapter _ _ subs => .chapter (itemsShape subs)
  | .separator => .separator
  | .partTitle _ => .partTitle
def itemsShape : BookItems → Shapes
  | .nil => .nil
  | .cons it rest => .cons (itemShape it) (itemsShape rest)
end

mutual
/-- The texts carried by an item, in traversal order (a chapter's body
content first, then its name, then its sub-items' texts). -/
def itemTexts : BookItem → List String
  | .chapter name content subs => content :: name :: itemsTexts subs
  | .separator => []
  | .partTitle title => [title]
def itemsTexts : BookItems → List String
  | .nil => []
  | .cons it rest => itemTexts it ++ itemsTexts rest
end

mutual
theorem itemShape_translate (catalog : Catalog) : ∀ it : BookItem,
    itemShape (translateItem catalog it) = itemShape it
  | .chapter name content subs => by
    rw [translateItem, itemShape, itemShape, itemsShape_translate catalog subs]
  | .separator => rfl
  | .partTitle _ => rfl
theorem itemsShape_translate (catalog : Catalog) : ∀ its : BookItems,
    itemsShape (translateItems catalog its) = itemsShape its
  | .nil => rfl
  | .cons it rest => by
    rw [translateItems, itemsShape, itemsShape, itemShape_translate catalog it,
      itemsShape_translate catalog rest]
end

mutual
theorem itemTexts_translate (catalog : Catalog) : ∀ it : BookItem,
    itemTexts (translateItem catalog it)
      = (itemTexts it).map (fun t => translate t catalog)
  | .chapter name content subs => by
    rw [translateItem, itemTexts, itemTexts, itemsTexts_translate catalog subs]
    rfl
  | .separator => rfl
  | .partTitle _ => rfl
theorem itemsTexts_translate (catalog : Catalog) : ∀ its : BookItems,
    itemsTexts (translateItems catalog its)
      = (itemsTexts its).map (fun t => translate t catalog)
  | .nil => rfl
  | .cons it rest => by
    rw [translateItems, itemsTexts, itemsTexts, itemTexts_translate catalog it,
      itemsTexts_translate catalog rest, List.map_append]
end

/-! ## Claim C8 -/

/-- C8: the book traversal applies `translate` to every chapter's body
and name and to every part title, leaves separators untouched, and
leaves the tree structure (node count, ordering, nesting) unchanged: the
shape of the translated book equals the shape of the input, and its
texts in traversal order are exactly the input's texts with `translate`
applied. -/
theorem C8_traversal (catalog : Catalog) (book : Book) :
    itemsShape (forEachTranslate catalog book).sections
        = itemsShape book.sections ∧
      itemsTexts (forEachTranslate catalog book).sections
        = (itemsTexts book.sections).map (fun t => translate t catalog) ∧
      translateItem catalog .separator = .separator :=
  ⟨itemsShape_translate catalog book.sections,
    itemsTexts_translate catalog book.sections, rfl⟩

/-! ## Claim C9 -/

/-- Modelled from the spec: a configuration value for
`preprocessor.gettext.po-file` as `translate_book` inspects it — either
a TOML string, or some other TOML value together with the description
used in the error message. -/
inductive ConfigValue : Type where
  | str (s : String)
  | other (typeDescr : String)

/-- Modelled from the spec: the preprocessor context consumed by
`translate_book` — the optional `preprocessor.gettext` configuration
table, and PO-file parsing (an excluded collaborator) as a function from
the configured path to a parse outcome. -/
structure PreprocessorContext : Type where
  gettextConfig : Option (List (String × ConfigValue))
  parsePoFile : String → Except String Catalog

/-- Embeds `cfg.get("po-file")`-style lookup in the configuration
table. -/
def getConfig (cfg : List (String × ConfigValue)) (key : String) :
    Option ConfigValue :=
  (cfg.find? (fun e => decide (e.1 = key))).map (fun e => e.2)

/-- Embeds `translate_book` (lines 67–97 of `mdbook-gettext.rs`): read
the `preprocessor.gettext` configuration, read and type-check the
`po-file` value, parse the catalog, and only then translate the book;
each failure aborts with a descriptive error. -/
def translate_book (ctx : PreprocessorContext) (book : Book) :
    Except String Book :=
  match ctx.gettextConfig with
  | none => .error "Could not read preprocessor.gettext configuration"
  | some cfg =>
    match getConfig cfg "po-file" with
    | none => .error "Missing preprocessor.gettext.po-file config value"
    | some (.other ty) =>
      .error ("Expected a string for preprocessor.gettext.po-file, found " ++ ty)
    | some (.str path) =>
      match ctx.parsePoFile path with
      | .error err => .error ("Could not parse " ++ path ++ " as PO file: " ++ err)
      | .ok catalog => .ok (forEachTranslate catalog book)

/-- C9: when the gettext configuration is missing, the po-file value is
missing or not a string, or the PO file cannot be parsed,
`translate_book` returns an error and produces no book at all — the
whole translation aborts before any node is touched, with no partial
output. -/
theorem C9_error_aborts (ctx : PreprocessorContext) (book : Book)
    (h : ctx.gettextConfig = none ∨
      (∃ cfg, ctx.gettextConfig = some cfg ∧ getConfig cfg "po-file" = none) ∨
      (∃ cfg ty, ctx.gettextConfig = some cfg ∧
        getConfig cfg "po-file" = some (.other ty)) ∨
      (∃ cfg path err, ctx.gettextConfig = some cfg ∧
        getConfig cfg "po-file" = some (.str path) ∧
        ctx.parsePoFile path = .error err)) :
    ∃ msg, translate_book ctx book = .error msg := by
  rcases h with h | ⟨cfg, h1, h2⟩ | ⟨cfg, ty, h1, h2⟩ | ⟨cfg, path, err, h1, h2, h3⟩
  · exact ⟨_, by unfold translate_book; rw [h]⟩
  · refine ⟨"Missing preprocessor.gettext.po-file config value", ?_⟩
    unfold translate_book
    rw [h1]
    simp only [h2]
  · refine ⟨"Expected a string for preprocessor.gettext.po-file, found " ++ ty, ?_⟩
    unfold translate_book
    rw [h1]
    simp only [h2]
  · refine ⟨"Could not parse " ++ path ++ " as PO file: " ++ err, ?_⟩
    unfold translate_book
    rw [h1]
    simp only [h2, h3]

/-- Witness for C9: a context with no gettext configuration aborts. -/
theorem C9_error_aborts_witness :
    ∃ msg, translate_book ⟨none, fun _ => Except.error "no file"⟩ ⟨.nil⟩
      = .error msg :=
  C9_error_aborts ⟨none, fun _ => Except.error "no file"⟩ ⟨.nil⟩ (Or.inl rfl)

end MdbookGettext
